import Mathlib

/-!
# Shallow embedding of `tenure-go` (package `tenure`)

The repository implements a fixed-capacity LRU cache (`LRUCache`) backed by
two structures guarded by one lock:

* `links : *list.List` — a doubly linked list of `*pair` values, head = most
  recently used, back/tail = least recently used;
* `cache : map[interface{}]*list.Element` — the key index, mapping a key to
  the list element holding its pair.

We model a sequential execution of the public operations (the lock serialises
all calls, so the sequential semantics is the per-operation contract).

Modelling choices, each mirroring the Go source:

* Go `interface{}` keys and values are modelled as `Option Int`: `none` is the
  Go `nil` interface value (a legal key and a legal value), `some n` any other
  value.  This is enough to express every claim, including the ones about
  `nil` results.
* The linked list `links` is a `List Pair`, front of the Lean list = head of
  the Go list (most recently used); `List.getLast?` is `links.Back()`.
* The map `cache` is an association list `List (Option Int × Option Int)`
  from key to the value held by the pointed-to element (the map entry in Go is
  a pointer to the list element whose `Value` is the shared `*pair`; reading
  through the pointer reads that pair's current value, so we keep the value in
  the association list and update it whenever the shared pair is mutated).
* The eviction callback is modelled by a flag `hasCallback` (is a callback
  registered?) together with, for every operation that can call it, an
  explicit log (`List Pair`) of the `(key, value)` arguments of the
  callback invocations performed by that call, in order.
* `container/list` element removal (`purgeLRUItem`) removes one specific
  element; we identify that element by its key and remove the first
  occurrence, which coincides with pointer removal whenever the keys in the
  list are pairwise distinct (the map invariant of the source guarantees
  this on every state the source itself can reach before the `Drop` bug,
  see `WF` below).
-/

/-- A Go `pair` value: the key/value payload stored in each list element. -/
structure Pair where
  key : Option Int
  value : Option Int
deriving Repr, DecidableEq

/-- The `LRUCache` struct: capacity, the linked list (front = head = MRU),
the key index map (association list key ↦ current value of the shared pair),
and whether an eviction callback is registered (`onItemEvicted != nil`). -/
structure LRUCache where
  capacity : Int
  links : List Pair
  cache : List (Option Int × Option Int)
  hasCallback : Bool
deriving Repr, DecidableEq

namespace Tenure

/-- Look a key up in the key-index map (`lc.cache[key]`): `some v` when the
map has the key (and the pointed-to pair currently holds value `v`),
`none` on a miss. -/
def lookupVal (m : List (Option Int × Option Int)) (k : Option Int) :
    Option (Option Int) :=
  match m with
  | [] => none
  | e :: rest => if e.1 = k then some e.2 else lookupVal rest k

/-- Remove the first list element whose pair has key `k`
(`lc.links.Remove(e)` where `e` is the element the map points to for `k`). -/
def removeKey (links : List Pair) (k : Option Int) : List Pair :=
  match links with
  | [] => []
  | p :: rest => if p.key = k then rest else p :: removeKey rest k

/-- Delete a key from the key-index map (`delete(lc.cache, kv.key)`). -/
def mapErase (m : List (Option Int × Option Int)) (k : Option Int) :
    List (Option Int × Option Int) :=
  match m with
  | [] => []
  | e :: rest => if e.1 = k then rest else e :: mapErase rest k

/-- Overwrite the value stored for a present key
(`kv.Value.(*pair).value = value` seen through the map pointer). -/
def mapSet (m : List (Option Int × Option Int)) (k : Option Int)
    (v : Option Int) : List (Option Int × Option Int) :=
  match m with
  | [] => []
  | e :: rest => if e.1 = k then (k, v) :: rest else e :: mapSet rest k v

/-- `func (lc *LRUCache) purgeLRUItem(e *list.Element)`: detach the element
from the list and delete its key from the map; `p` is the pair the element
holds. -/
def purgeLRUItem (c : LRUCache) (p : Pair) : LRUCache :=
  { c with links := removeKey c.links p.key, cache := mapErase c.cache p.key }

/-- `func (lc *LRUCache) tryEvict(e *list.Element)`: invoke the callback with
the element's key/value when a callback is registered.  We return the list of
callback invocations this performs (one or zero). -/
def tryEvict (c : LRUCache) (p : Pair) : List Pair :=
  if c.hasCallback then [p] else []

/-- `func New(bufCap int, onItemEvicted Callback) (*LRUCache, error)`:
`none` models the error return (no cache produced). -/
def New (bufCap : Int) (hasCallback : Bool) : Option LRUCache :=
  if bufCap ≤ 0 then
    none
  else
    some { capacity := bufCap, links := [], cache := [], hasCallback }

/-- `func (lc *LRUCache) Get(key)`: on a hit, move the element to the front
and return its value with `ok = true`; on a miss return `(nil, false)`.
(The source's `kv.Value.(*pair) == nil` guard can never fire, since every
stored element holds a non-nil `*pair`.)  Result: value, ok, new state. -/
def Get (c : LRUCache) (k : Option Int) : Option Int × Bool × LRUCache :=
  match lookupVal c.cache k with
  | some v => (v, true, { c with links := Pair.mk k v :: removeKey c.links k })
  | none => (none, false, c)

/-- `func (lc *LRUCache) Put(key, value)`: update-in-place + move-to-front
when the key is present; otherwise push a new pair to the front and, when the
list length now exceeds the capacity, purge and evict the back element.
Result: `wasEvicted`, new state, callback-invocation log. -/
def Put (c : LRUCache) (k : Option Int) (v : Option Int) :
    Bool × LRUCache × List Pair :=
  match lookupVal c.cache k with
  | some _ =>
      (false,
       { c with links := Pair.mk k v :: removeKey c.links k,
                cache := mapSet c.cache k v },
       [])
  | none =>
      let c1 : LRUCache :=
        { c with links := Pair.mk k v :: c.links, cache := (k, v) :: c.cache }
      if (c1.links.length : Int) > c1.capacity then
        match c1.links.getLast? with
        | some tail => (true, purgeLRUItem c1 tail, tryEvict c1 tail)
        | none => (false, c1, [])
      else
        (false, c1, [])

/-- `func (lc *LRUCache) Del(key)`: purge the element when present (no
`tryEvict` call in the source, hence the log is always empty); `false` and
no change when absent.  Result: `wasDeleted`, new state, callback log. -/
def Del (c : LRUCache) (k : Option Int) : Bool × LRUCache × List Pair :=
  match lookupVal c.cache k with
  | some v => (true, purgeLRUItem c (Pair.mk k v), [])
  | none => (false, c, [])

/-- `func (lc *LRUCache) Keys()`: iterate from `Back()` following `Prev()`,
i.e. tail to head. -/
def Keys (c : LRUCache) : List (Option Int) :=
  (c.links.map Pair.key).reverse

/-- `func (lc *LRUCache) Peek(key)`: the value through the map pointer on a
hit, `nil` on a miss; no state change (result paired with the unchanged
state to express the frame property). -/
def Peek (c : LRUCache) (k : Option Int) : Option Int × LRUCache :=
  match lookupVal c.cache k with
  | some v => (v, c)
  | none => (none, c)

/-- `func (lc *LRUCache) Has(key)`: map membership only; no state change. -/
def Has (c : LRUCache) (k : Option Int) : Bool × LRUCache :=
  ((lookupVal c.cache k).isSome, c)

/-- The body of the `range lc.cache` loop in `Purge`/`Drop`: for each map
entry, ONLY when a callback is registered, purge the entry and invoke the
callback.  (When no callback is registered the loop body does nothing: the
map is left untouched — the guard in the source wraps `purgeLRUItem` too.)
Go permits deleting the current entry while ranging; every entry of the
snapshot is visited. -/
def dropLoop (entries : List (Option Int × Option Int)) (c : LRUCache) :
    LRUCache × List Pair :=
  match entries with
  | [] => (c, [])
  | (k, v) :: rest =>
      if c.hasCallback then
        let c1 := purgeLRUItem c (Pair.mk k v)
        let log1 := tryEvict c1 (Pair.mk k v)
        let r := dropLoop rest c1
        (r.1, log1 ++ r.2)
      else
        dropLoop rest c

/-- `func (lc *LRUCache) Drop()` (identical body to the earlier revision's
`Purge()`): run the range loop over the map, then `lc.links.Init()` (reset
the list to empty).  Result: new state, callback-invocation log. -/
def Drop (c : LRUCache) : LRUCache × List Pair :=
  let r := dropLoop c.cache c
  ({ r.1 with links := [] }, r.2)

/-- `func (lc *LRUCache) Size() int = lc.links.Len()`. -/
def Size (c : LRUCache) : Int :=
  (c.links.length : Int)

/-- `func (lc *LRUCache) Capacity() int`. -/
def Capacity (c : LRUCache) : Int :=
  c.capacity

/-- The eviction loop of `AdjustCapacity`: `diff` iterations, each purging
and evicting `links.Back()` when the list is non-empty. -/
def adjustLoop (n : Nat) (c : LRUCache) : LRUCache × List Pair :=
  match n with
  | 0 => (c, [])
  | m + 1 =>
      match c.links.getLast? with
      | some tail =>
          let c1 := purgeLRUItem c tail
          let log1 := tryEvict c tail
          let r := adjustLoop m c1
          (r.1, log1 ++ r.2)
      | none => adjustLoop m c

/-- `func (lc *LRUCache) AdjustCapacity(bufCap int) (numEvicted int)`:
`diff := max (Len - bufCap) 0`; evict the back `diff` times; set the
capacity; return `diff`.  Result: `numEvicted`, new state, callback log. -/
def AdjustCapacity (c : LRUCache) (bufCap : Int) :
    Int × LRUCache × List Pair :=
  let diff : Int := (c.links.length : Int) - bufCap
  let diff : Int := if diff < 0 then 0 else diff
  let r := adjustLoop diff.toNat c
  (diff, { r.1 with capacity := bufCap }, r.2)

/-- `func (lc *LRUCache) LeastRecentlyUsed()`: the pair at `links.Back()`,
or the zero values (`nil`, `nil`) when the list is empty. -/
def LeastRecentlyUsed (c : LRUCache) : Option Int × Option Int :=
  match c.links.getLast? with
  | some p => (p.key, p.value)
  | none => (none, none)

/-! ## Derived notions used in the statements and proofs -/

/-- Remove the first occurrence of a key from a key list (the key-list shadow
of removing one element). -/
def eraseKey (l : List (Option Int)) (k : Option Int) : List (Option Int) :=
  match l with
  | [] => []
  | a :: rest => if a = k then rest else a :: eraseKey rest k

/-- The keys stored in the linked list, head to tail. -/
def linksKeys (c : LRUCache) : List (Option Int) :=
  c.links.map Pair.key

/-- The keys present in the key-index map. -/
def mapKeys (c : LRUCache) : List (Option Int) :=
  c.cache.map Prod.fst

/-- Structural well-formedness maintained by the source (its map entries
point to live list elements): the list holds exactly the keys of the map,
with no key stored twice.  Every cache produced by `New` satisfies it, and
every operation except the buggy no-callback `Drop` preserves it. -/
def WF (c : LRUCache) : Prop :=
  List.Perm (linksKeys c) (mapKeys c) ∧ (linksKeys c).Nodup

instance (c : LRUCache) : Decidable (WF c) := by
  unfold WF
  infer_instance

/-- Apply a sequence of `Put` calls (key/value per call), keeping the state. -/
def applyPuts (c : LRUCache) (ops : List (Option Int × Option Int)) :
    LRUCache :=
  ops.foldl (fun s op => (Put s op.1 op.2).2.1) c

/-- Apply a sequence of `Has` (flag `true`) and `Peek` (flag `false`) calls,
keeping the state each returns. -/
def applyQueries (c : LRUCache) (qs : List (Bool × Option Int)) : LRUCache :=
  qs.foldl (fun s q => if q.1 then (Has s q.2).2 else (Peek s q.2).2) c

/-- The spec's recency scenario on a capacity-3 cache with a callback:
`Put(1,1); Put(2,2); Get(1); Put(3,3); Get(1); Put(4,4); Get(1); Put(5,5)`.
First component: the final state; second: the concatenated callback logs. -/
def recencyTrace : LRUCache × List Pair :=
  let c0 : LRUCache := { capacity := 3, links := [], cache := [],
                         hasCallback := true }
  let r1 := Put c0 (some 1) (some 1)
  let r2 := Put r1.2.1 (some 2) (some 2)
  let g1 := Get r2.2.1 (some 1)
  let r3 := Put g1.2.2 (some 3) (some 3)
  let g2 := Get r3.2.1 (some 1)
  let r4 := Put g2.2.2 (some 4) (some 4)
  let g3 := Get r4.2.1 (some 1)
  let r5 := Put g3.2.2 (some 5) (some 5)
  (r5.2.1, r1.2.2 ++ r2.2.2 ++ r3.2.2 ++ r4.2.2 ++ r5.2.2)

/-- The state after `New(1, nil); Put(1,1); Drop()` — a `Drop` on a cache
with NO registered callback. -/
def dropBugState : LRUCache :=
  (Drop ((Put { capacity := 1, links := [], cache := [],
                hasCallback := false } (some 1) (some 1)).2.1)).1

/-- A one-entry cache with a registered callback, used to probe
`AdjustCapacity` with a negative target capacity. -/
def negAdjustCache : LRUCache :=
  { capacity := 1, links := [Pair.mk (some 1) (some 1)],
    cache := [(some 1, some 1)], hasCallback := true }

/-- A full capacity-3 cache (keys 1, 2, 3; key 3 most recent) with a
registered callback. -/
def shrinkCache : LRUCache :=
  { capacity := 3,
    links := [Pair.mk (some 3) (some 3), Pair.mk (some 2) (some 2),
              Pair.mk (some 1) (some 1)],
    cache := [(some 3, some 3), (some 2, some 2), (some 1, some 1)],
    hasCallback := true }

/-! ## Basic lemmas about the list/map helpers -/

theorem lookupVal_eq_none_iff (m : List (Option Int × Option Int))
    (k : Option Int) : lookupVal m k = none ↔ k ∉ m.map Prod.fst := by
  induction m with
  | nil => simp [lookupVal]
  | cons e rest ih =>
      by_cases h : e.1 = k
      · simp [lookupVal, h]
      · simp [lookupVal, h, ih, Ne.symm h]

theorem mem_of_lookupVal_eq_some (m : List (Option Int × Option Int))
    (k : Option Int) (v : Option Int) (h : lookupVal m k = some v) :
    k ∈ m.map Prod.fst := by
  by_contra hmem
  rw [← lookupVal_eq_none_iff] at hmem
  rw [hmem] at h
  exact Option.noConfusion h

theorem lookupVal_mapSet (m : List (Option Int × Option Int))
    (k : Option Int) (v w : Option Int) (h : lookupVal m k = some w) :
    lookupVal (mapSet m k v) k = some v := by
  induction m with
  | nil => simp [lookupVal] at h
  | cons e rest ih =>
      by_cases he : e.1 = k
      · simp [mapSet, he, lookupVal]
      · simp only [lookupVal, he, if_false] at h
        simp [mapSet, he, lookupVal, ih h]

theorem map_fst_mapSet (m : List (Option Int × Option Int))
    (k : Option Int) (v : Option Int) :
    (mapSet m k v).map Prod.fst = m.map Prod.fst := by
  induction m with
  | nil => rfl
  | cons e rest ih =>
      by_cases he : e.1 = k
      · simp [mapSet, he]
      · simp [mapSet, he, ih]

theorem map_fst_mapErase (m : List (Option Int × Option Int))
    (k : Option Int) :
    (mapErase m k).map Prod.fst = eraseKey (m.map Prod.fst) k := by
  induction m with
  | nil => rfl
  | cons e rest ih =>
      by_cases he : e.1 = k
      · simp [mapErase, eraseKey, he]
      · simp [mapErase, eraseKey, he, ih]

theorem map_key_removeKey (l : List Pair) (k : Option Int) :
    (removeKey l k).map Pair.key = eraseKey (l.map Pair.key) k := by
  induction l with
  | nil => rfl
  | cons p rest ih =>
      by_cases hp : p.key = k
      · simp [removeKey, eraseKey, hp]
      · simp [removeKey, eraseKey, hp, ih]

theorem eraseKey_sublist (l : List (Option Int)) (k : Option Int) :
    (eraseKey l k).Sublist l := by
  induction l with
  | nil => simp [eraseKey]
  | cons a rest ih =>
      by_cases ha : a = k
      · simp [eraseKey, ha, List.sublist_cons_self]
      · simpa [eraseKey, ha] using ih.cons₂ a

theorem nodup_eraseKey (l : List (Option Int)) (k : Option Int)
    (h : l.Nodup) : (eraseKey l k).Nodup :=
  h.sublist (eraseKey_sublist l k)

theorem eraseKey_of_not_mem (l : List (Option Int)) (k : Option Int)
    (h : k ∉ l) : eraseKey l k = l := by
  induction l with
  | nil => rfl
  | cons a rest ih =>
      simp only [List.mem_cons, not_or] at h
      simp [eraseKey, Ne.symm h.1, ih h.2]

theorem not_mem_eraseKey_of_nodup (l : List (Option Int)) (k : Option Int)
    (h : l.Nodup) : k ∉ eraseKey l k := by
  induction l with
  | nil => simp [eraseKey]
  | cons a rest ih =>
      by_cases ha : a = k
      · subst ha
        simp only [eraseKey, if_pos rfl]
        exact (List.nodup_cons.mp h).1
      · simp only [eraseKey, ha, if_false, List.mem_cons, not_or]
        exact ⟨Ne.symm ha, ih (List.nodup_cons.mp h).2⟩

theorem length_eraseKey_of_mem (l : List (Option Int)) (k : Option Int)
    (h : k ∈ l) : (eraseKey l k).length + 1 = l.length := by
  induction l with
  | nil => simp at h
  | cons a rest ih =>
      by_cases ha : a = k
      · simp [eraseKey, ha]
      · have hrest : k ∈ rest := by
          rcases List.mem_cons.mp h with h1 | h2
          · exact absurd h1.symm ha
          · exact h2
        simp [eraseKey, ha, ← ih hrest]

theorem perm_cons_eraseKey (l : List (Option Int)) (k : Option Int)
    (h : k ∈ l) : List.Perm l (k :: eraseKey l k) := by
  induction l with
  | nil => simp at h
  | cons a rest ih =>
      by_cases ha : a = k
      · subst ha
        simp [eraseKey]
      · have hrest : k ∈ rest := by
          rcases List.mem_cons.mp h with h1 | h2
          · exact absurd h1.symm ha
          · exact h2
        rw [(by simp [eraseKey, ha] :
              eraseKey (a :: rest) k = a :: eraseKey rest k)]
        exact ((ih hrest).cons a).trans (List.Perm.swap k a _)

theorem perm_eraseKey (l₁ l₂ : List (Option Int)) (k : Option Int)
    (h : List.Perm l₁ l₂) :
    List.Perm (eraseKey l₁ k) (eraseKey l₂ k) := by
  induction h with
  | nil => exact List.Perm.refl _
  | cons a hp ih =>
      by_cases ha : a = k
      · simpa [eraseKey, ha] using hp
      · simpa [eraseKey, ha] using ih.cons a
  | swap a b l =>
      by_cases hb : b = k
      · by_cases ha : a = k
        · rw [(by simp [eraseKey, hb] : eraseKey (b :: a :: l) k = a :: l),
              (by simp [eraseKey, ha] : eraseKey (a :: b :: l) k = b :: l),
              ha, hb]
        · rw [(by simp [eraseKey, hb] : eraseKey (b :: a :: l) k = a :: l),
              (by simp [eraseKey, ha, hb] :
                eraseKey (a :: b :: l) k = a :: l)]
      · by_cases ha : a = k
        · rw [(by simp [eraseKey, ha, hb] :
                eraseKey (b :: a :: l) k = b :: l),
              (by simp [eraseKey, ha] : eraseKey (a :: b :: l) k = b :: l)]
        · rw [(by simp [eraseKey, ha, hb] :
                eraseKey (b :: a :: l) k = b :: a :: eraseKey l k),
              (by simp [eraseKey, ha, hb] :
                eraseKey (a :: b :: l) k = a :: b :: eraseKey l k)]
          exact List.Perm.swap a b _
  | trans _ _ ih₁ ih₂ => exact ih₁.trans ih₂

theorem length_removeKey_of_mem (l : List Pair) (k : Option Int)
    (h : k ∈ l.map Pair.key) : (removeKey l k).length + 1 = l.length := by
  have h1 := congrArg List.length (map_key_removeKey l k)
  simp only [List.length_map] at h1
  rw [h1]
  simpa using length_eraseKey_of_mem _ _ h

theorem removeKey_append_not_mem (l₁ l₂ : List Pair) (k : Option Int)
    (h : k ∉ l₁.map Pair.key) :
    removeKey (l₁ ++ l₂) k = l₁ ++ removeKey l₂ k := by
  induction l₁ with
  | nil => rfl
  | cons p rest ih =>
      simp only [List.map_cons, List.mem_cons, not_or] at h
      have hp : p.key ≠ k := Ne.symm h.1
      simp [removeKey, hp, ih h.2]

theorem removeKey_getLast_of_nodup (l : List Pair) (t : Pair)
    (hl : l.getLast? = some t) (hnd : (l.map Pair.key).Nodup) :
    removeKey l t.key = l.dropLast := by
  obtain ⟨ys, rfl⟩ := List.getLast?_eq_some_iff.mp hl
  rw [(by simp : (ys ++ [t]).map Pair.key = ys.map Pair.key ++ [t.key])]
    at hnd
  have hnm : t.key ∉ ys.map Pair.key := by
    intro hmem
    exact (List.nodup_append.mp hnd).2.2 hmem (by simp)
  rw [removeKey_append_not_mem ys [t] t.key hnm]
  simp [removeKey]

/-! ## Preservation of well-formedness and the size bound -/

theorem WF_New (bufCap : Int) (cb : Bool) (c : LRUCache)
    (h : New bufCap cb = some c) :
    WF c ∧ Size c = 0 ∧ c.capacity = bufCap ∧ 0 < bufCap := by
  unfold New at h
  by_cases hb : bufCap ≤ 0
  · simp [hb] at h
  · simp only [hb, if_false, Option.some.injEq] at h
    subst h
    exact ⟨⟨List.Perm.refl _, List.nodup_nil⟩, rfl, rfl, by omega⟩

theorem Put_preserves (c : LRUCache) (k v : Option Int) (hwf : WF c) :
    WF (Put c k v).2.1 ∧
    (Put c k v).2.1.capacity = c.capacity ∧
    (Put c k v).2.1.hasCallback = c.hasCallback ∧
    (Size c ≤ c.capacity → Size (Put c k v).2.1 ≤ c.capacity) := by
  obtain ⟨hperm, hnd⟩ := hwf
  cases hlk : lookupVal c.cache k with
  | some w =>
      have hkm : k ∈ mapKeys c := mem_of_lookupVal_eq_some _ _ _ hlk
      have hkl : k ∈ linksKeys c := hperm.mem_iff.mpr hkm
      have hlinks :
          (Put c k v).2.1.links = Pair.mk k v :: removeKey c.links k := by
        simp [Put, hlk]
      have hcache : (Put c k v).2.1.cache = mapSet c.cache k v := by
        simp [Put, hlk]
      have hkeys : linksKeys (Put c k v).2.1 = k :: eraseKey (linksKeys c) k := by
        simp [linksKeys, hlinks, map_key_removeKey]
      have hmk : mapKeys (Put c k v).2.1 = mapKeys c := by
        simp [mapKeys, hcache, map_fst_mapSet]
      refine ⟨⟨?_, ?_⟩, ?_, ?_, ?_⟩
      · rw [hkeys, hmk]
        exact ((perm_cons_eraseKey _ _ hkl).symm.trans hperm)
      · rw [hkeys]
        exact List.nodup_cons.mpr
          ⟨not_mem_eraseKey_of_nodup _ _ hnd, nodup_eraseKey _ _ hnd⟩
      · simp [Put, hlk]
      · simp [Put, hlk]
      · intro hsz
        have hlen : (Put c k v).2.1.links.length = c.links.length := by
          rw [hlinks, List.length_cons,
            length_removeKey_of_mem c.links k (by simpa [linksKeys] using hkl)]
        simpa [Size, hlen] using hsz
  | none =>
      have hkm : k ∉ mapKeys c := (lookupVal_eq_none_iff c.cache k).mp hlk
      have hkl : k ∉ linksKeys c := fun hm => hkm (hperm.mem_iff.mp hm)
      obtain ⟨c1, hc1⟩ : ∃ c1 : LRUCache,
          c1 = { c with links := Pair.mk k v :: c.links,
                        cache := (k, v) :: c.cache } := ⟨_, rfl⟩
      have hwf1 : WF c1 := by
        constructor
        · simpa [linksKeys, mapKeys, hc1] using hperm.cons k
        · simpa [linksKeys, hc1] using List.nodup_cons.mpr ⟨hkl, hnd⟩
      have hc1len : c1.links.length = c.links.length + 1 := by simp [hc1]
      have hc1cap : c1.capacity = c.capacity := by simp [hc1]
      by_cases hlen : c.capacity < (c.links.length : Int) + 1
      · -- eviction branch
        cases htail : c1.links.getLast? with
        | none =>
            rw [List.getLast?_eq_none_iff] at htail
            simp [hc1] at htail
        | some tail =>
            have htail2 : (Pair.mk k v :: c.links).getLast? = some tail := by
              simp only [hc1] at htail
              simpa using htail
            have hput : Put c k v = (true, purgeLRUItem c1 tail, tryEvict c1 tail) := by
              simp [Put, hlk, ← hc1, htail2, hlen]
            obtain ⟨ys, hys⟩ := List.getLast?_eq_some_iff.mp htail
            have htk : tail.key ∈ linksKeys c1 := by
              simp [linksKeys, hys]
            refine ⟨⟨?_, ?_⟩, ?_, ?_, ?_⟩
            · rw [hput]
              simpa [purgeLRUItem, linksKeys, mapKeys, map_key_removeKey,
                map_fst_mapErase] using perm_eraseKey _ _ tail.key hwf1.1
            · rw [hput]
              simpa [purgeLRUItem, linksKeys, map_key_removeKey] using
                nodup_eraseKey _ tail.key hwf1.2
            · rw [hput]
              simp [purgeLRUItem, hc1cap]
            · rw [hput]
              simp [purgeLRUItem, hc1]
            · intro hsz
              have hlen1 : (removeKey c1.links tail.key).length + 1 =
                  c1.links.length :=
                length_removeKey_of_mem c1.links tail.key
                  (by simpa [linksKeys] using htk)
              rw [hput]
              simp only [Size, purgeLRUItem]
              simp only [Size] at hsz
              omega
      · have hput : Put c k v = (false, c1, []) := by
          simp [Put, hlk, ← hc1, hlen]
        rw [hput]
        refine ⟨hwf1, hc1cap, by simp [hc1], ?_⟩
        intro _
        simp only [Size, hc1len, hc1cap]
        omega

theorem Has_state (c : LRUCache) (k : Option Int) : (Has c k).2 = c := rfl

theorem Peek_state (c : LRUCache) (k : Option Int) : (Peek c k).2 = c := by
  unfold Peek
  cases lookupVal c.cache k <;> rfl

theorem applyPuts_invariant (ops : List (Option Int × Option Int))
    (c : LRUCache) (hwf : WF c) (hsz : Size c ≤ c.capacity) :
    WF (applyPuts c ops) ∧ (applyPuts c ops).capacity = c.capacity ∧
    Size (applyPuts c ops) ≤ (applyPuts c ops).capacity := by
  induction ops generalizing c with
  | nil => exact ⟨hwf, rfl, hsz⟩
  | cons op rest ih =>
      obtain ⟨hwf1, hcap1, _, himp⟩ := Put_preserves c op.1 op.2 hwf
      have hrec := ih (Put c op.1 op.2).2.1 hwf1 (by rw [hcap1]; exact himp hsz)
      have hstep : applyPuts c (op :: rest) =
          applyPuts (Put c op.1 op.2).2.1 rest := rfl
      rw [hstep]
      exact ⟨hrec.1, hrec.2.1.trans hcap1, hrec.2.2⟩

/-! ## The claims -/

/-- C1: for every cache created by `New` with positive capacity and every
sequence of `Put` calls, after each `Put` (i.e. after every prefix of the
sequence) `Size() ≤ Capacity()` holds. -/
theorem put_capacity_invariant (bufCap : Int) (cb : Bool) (c0 : LRUCache)
    (h0 : New bufCap cb = some c0) (ops : List (Option Int × Option Int))
    (n : Nat) :
    Size (applyPuts c0 (ops.take n)) ≤ Capacity (applyPuts c0 (ops.take n)) := by
  obtain ⟨hwf, hsz, hcap, hpos⟩ := WF_New bufCap cb c0 h0
  have hle : Size c0 ≤ c0.capacity := by
    rw [hsz, hcap]
    omega
  have h := applyPuts_invariant (ops.take n) c0 hwf hle
  simpa [Capacity] using h.2.2

theorem put_capacity_invariant_witness :
    Size (applyPuts
        { capacity := 2, links := [], cache := [], hasCallback := true }
        ([((some 1 : Option Int), (some 1 : Option Int)),
          (some 2, some 2), (some 3, some 3)].take 3)) ≤
    Capacity (applyPuts
        { capacity := 2, links := [], cache := [], hasCallback := true }
        ([((some 1 : Option Int), (some 1 : Option Int)),
          (some 2, some 2), (some 3, some 3)].take 3)) :=
  put_capacity_invariant 2 true _ (by decide) _ 3

/-- C2: on the capacity-3 cache with a callback, the trace
`Put(1,1); Put(2,2); Get(1); Put(3,3); Get(1); Put(4,4); Get(1); Put(5,5)`
invokes the callback exactly twice, and `LeastRecentlyUsed()` then returns
the pair `(4, 4)`. -/
theorem recency_trace_spec :
    New 3 true =
      some { capacity := 3, links := [], cache := [], hasCallback := true } ∧
    recencyTrace.2.length = 2 ∧
    LeastRecentlyUsed recencyTrace.1 = (some 4, some 4) := by
  decide

/-- C3 (failing input): `New(1, nil); Put(1,1); Drop()` — with no callback
registered — leaves `Size() = 0` and `Keys() = []`, but the key index still
contains key `1`, so `Has(1)` returns `true`: the cache does NOT contain no
entries after `Drop`, contradicting the claim. -/
theorem drop_without_callback_keeps_index :
    New 1 false =
      some { capacity := 1, links := [], cache := [], hasCallback := false } ∧
    Size dropBugState = 0 ∧
    Keys dropBugState = [] ∧
    (Has dropBugState (some 1)).1 = true := by
  decide

/-- C4 (failing input): after `New(1, nil); Put(1,1); Drop()` the linked
list holds no key while the key-index map still holds key `1` — the two key
sets differ, refuting the between-operations equality invariant on this
reachable state. -/
theorem drop_without_callback_desyncs :
    New 1 false =
      some { capacity := 1, links := [], cache := [], hasCallback := false } ∧
    linksKeys dropBugState = [] ∧
    mapKeys dropBugState = [some 1] ∧
    ¬ List.Perm (linksKeys dropBugState) (mapKeys dropBugState) := by
  decide

/-- C7: any number of `Has`/`Peek` calls, in any order and on any keys,
leaves the cache state literally unchanged (ordering, key set, values, size,
capacity), fires no callback (neither operation ever calls the callback in
the source), and any subsequent `Put` or `AdjustCapacity` — in particular a
capacity-driven eviction — behaves exactly as if the queries never
happened. -/
theorem has_peek_non_perturbation (c : LRUCache)
    (qs : List (Bool × Option Int)) :
    applyQueries c qs = c ∧
    (∀ k v, Put (applyQueries c qs) k v = Put c k v) ∧
    (∀ b, AdjustCapacity (applyQueries c qs) b = AdjustCapacity c b) := by
  have h : applyQueries c qs = c := by
    induction qs generalizing c with
    | nil => rfl
    | cons q rest ih =>
        have hstep : (if q.1 then (Has c q.2).2 else (Peek c q.2).2) = c := by
          cases q.1 <;> simp [Has_state, Peek_state]
        have h1 : applyQueries c (q :: rest) =
            applyQueries (if q.1 then (Has c q.2).2 else (Peek c q.2).2)
              rest := rfl
        rw [h1, hstep, ih]
  exact ⟨h, fun k v => by rw [h], fun b => by rw [h]⟩

/-- C9: `New` fails (returns no cache) exactly when the capacity is
non-positive; for every strictly positive capacity it returns a cache with
size `0` and the given capacity. -/
theorem new_validation (bufCap : Int) (cb : Bool) :
    (New bufCap cb = none ↔ bufCap ≤ 0) ∧
    (0 < bufCap → ∃ c, New bufCap cb = some c ∧ Size c = 0 ∧
      Capacity c = bufCap) := by
  constructor
  · unfold New
    by_cases hb : bufCap ≤ 0 <;> simp [hb]
  · intro hb
    refine
      ⟨{ capacity := bufCap, links := [], cache := [], hasCallback := cb },
        ?_, rfl, rfl⟩
    unfold New
    rw [if_neg (not_le.mpr hb)]

theorem new_validation_witness :
    ∃ c, New 1 false = some c ∧ Size c = 0 ∧ Capacity c = 1 :=
  (new_validation 1 false).2 (by decide)

/-- C10: `Peek` returns the bare value — `nil` on a miss — so a key stored
with a `nil` value is indistinguishable through `Peek` from an absent key;
likewise `LeastRecentlyUsed` on an empty cache returns `(nil, nil)`, the
same result as for a stored `nil`/`nil` pair at the tail. -/
theorem peek_nil_miss_indistinguishable (c e t : LRUCache)
    (k k' : Option Int)
    (hk : lookupVal c.cache k = some none)
    (hk' : lookupVal c.cache k' = none)
    (he : e.links = [])
    (ht : t.links.getLast? = some (Pair.mk none none)) :
    (Peek c k).1 = none ∧ (Peek c k').1 = none ∧
    (Peek c k).1 = (Peek c k').1 ∧
    LeastRecentlyUsed e = (none, none) ∧
    LeastRecentlyUsed t = (none, none) := by
  refine ⟨by simp [Peek, hk], by simp [Peek, hk'],
    by simp [Peek, hk, hk'], ?_, ?_⟩
  · simp [LeastRecentlyUsed, he]
  · simp [LeastRecentlyUsed, ht]

theorem peek_nil_miss_indistinguishable_witness :
    (Peek
        { capacity := 2, links := [Pair.mk (some 1) none],
          cache := [(some 1, none)], hasCallback := false }
        (some 1)).1 = none ∧
    (Peek
        { capacity := 2, links := [Pair.mk (some 1) none],
          cache := [(some 1, none)], hasCallback := false }
        (some 2)).1 = none ∧
    (Peek
        { capacity := 2, links := [Pair.mk (some 1) none],
          cache := [(some 1, none)], hasCallback := false }
        (some 1)).1 =
      (Peek
        { capacity := 2, links := [Pair.mk (some 1) none],
          cache := [(some 1, none)], hasCallback := false }
        (some 2)).1 ∧
    LeastRecentlyUsed
      { capacity := 1, links := [], cache := [], hasCallback := false } =
      (none, none) ∧
    LeastRecentlyUsed
      { capacity := 1, links := [Pair.mk none none],
        cache := [(none, none)], hasCallback := false } =
      (none, none) :=
  peek_nil_miss_indistinguishable _ _ _ (some 1) (some 2)
    (by decide) (by decide) rfl rfl


/-- C5: `Put` on an already-present key (in a well-formed cache, including
at capacity) overwrites the stored value, promotes the entry to the head of
the ordering, returns `wasEvicted = false`, leaves `Size()` unchanged, and
never invokes the eviction callback. -/
theorem put_existing_never_evicts (c : LRUCache) (k v w : Option Int)
    (hwf : WF c) (hk : lookupVal c.cache k = some w) :
    (Put c k v).1 = false ∧
    (Put c k v).2.2 = [] ∧
    Size (Put c k v).2.1 = Size c ∧
    Capacity (Put c k v).2.1 = Capacity c ∧
    (Put c k v).2.1.links.head? = some (Pair.mk k v) ∧
    lookupVal (Put c k v).2.1.cache k = some v := by
  obtain ⟨hperm, hnd⟩ := hwf
  have hkm : k ∈ mapKeys c := mem_of_lookupVal_eq_some _ _ _ hk
  have hkl : k ∈ linksKeys c := hperm.mem_iff.mpr hkm
  refine ⟨by simp [Put, hk], by simp [Put, hk], ?_,
    by simp [Put, hk, Capacity], by simp [Put, hk], ?_⟩
  · have hlen : (removeKey c.links k).length + 1 = c.links.length :=
      length_removeKey_of_mem c.links k (by simpa [linksKeys] using hkl)
    simp only [Put, hk, Size, List.length_cons]
    omega
  · simp only [Put, hk]
    exact lookupVal_mapSet c.cache k v w hk

theorem put_existing_never_evicts_witness :
    (Put negAdjustCache (some 1) (some 7)).1 = false ∧
    (Put negAdjustCache (some 1) (some 7)).2.2 = [] ∧
    Size (Put negAdjustCache (some 1) (some 7)).2.1 = Size negAdjustCache ∧
    Capacity (Put negAdjustCache (some 1) (some 7)).2.1 =
      Capacity negAdjustCache ∧
    (Put negAdjustCache (some 1) (some 7)).2.1.links.head? =
      some (Pair.mk (some 1) (some 7)) ∧
    lookupVal (Put negAdjustCache (some 1) (some 7)).2.1.cache (some 1) =
      some (some 7) :=
  put_existing_never_evicts negAdjustCache (some 1) (some 7) (some 1)
    (by decide) (by decide)

/-- C8: `Del` on a present key returns `true`, removes the key from both the
ordering and the key index, and never invokes the eviction callback; `Del`
on an absent key returns `false` and leaves the whole state unchanged. -/
theorem del_present_absent_spec (c : LRUCache) (k : Option Int)
    (hwf : WF c) :
    (∀ v, lookupVal c.cache k = some v →
      (Del c k).1 = true ∧
      (Del c k).2.2 = [] ∧
      k ∉ linksKeys (Del c k).2.1 ∧
      k ∉ mapKeys (Del c k).2.1 ∧
      Size (Del c k).2.1 + 1 = Size c) ∧
    (lookupVal c.cache k = none → Del c k = (false, c, [])) := by
  obtain ⟨hperm, hnd⟩ := hwf
  have hndm : (mapKeys c).Nodup := hperm.nodup_iff.mp hnd
  constructor
  · intro v hv
    have hkm : k ∈ mapKeys c := mem_of_lookupVal_eq_some _ _ _ hv
    have hkl : k ∈ linksKeys c := hperm.mem_iff.mpr hkm
    refine ⟨by simp [Del, hv], by simp [Del, hv], ?_, ?_, ?_⟩
    · simp only [Del, hv, purgeLRUItem]
      simpa [linksKeys, map_key_removeKey] using
        not_mem_eraseKey_of_nodup _ k hnd
    · simp only [Del, hv, purgeLRUItem]
      simpa [mapKeys, map_fst_mapErase] using
        not_mem_eraseKey_of_nodup _ k hndm
    · have hlen : (removeKey c.links k).length + 1 = c.links.length :=
        length_removeKey_of_mem c.links k (by simpa [linksKeys] using hkl)
      simp only [Del, hv, purgeLRUItem, Size]
      omega
  · intro hv
    simp [Del, hv]

theorem del_present_absent_spec_witness :
    (Del negAdjustCache (some 1)).1 = true ∧
    (Del negAdjustCache (some 1)).2.2 = [] ∧
    (some 1) ∉ linksKeys (Del negAdjustCache (some 1)).2.1 ∧
    (some 1) ∉ mapKeys (Del negAdjustCache (some 1)).2.1 ∧
    Size (Del negAdjustCache (some 1)).2.1 + 1 = Size negAdjustCache :=
  (del_present_absent_spec negAdjustCache (some 1) (by decide)).1
    (some 1) (by decide)

theorem adjustLoop_spec (n : Nat) (c : LRUCache) (hn : n ≤ c.links.length)
    (hnd : (c.links.map Pair.key).Nodup) :
    (adjustLoop n c).1.links = c.links.take (c.links.length - n) ∧
    (adjustLoop n c).1.capacity = c.capacity ∧
    (adjustLoop n c).1.hasCallback = c.hasCallback ∧
    (adjustLoop n c).2 =
      (if c.hasCallback then (c.links.drop (c.links.length - n)).reverse
       else []) := by
  induction n generalizing c with
  | zero => simp [adjustLoop]
  | succ m ih =>
      have hne : c.links ≠ [] := by
        intro h
        rw [h] at hn
        simp at hn
      cases hL : c.links.getLast? with
      | none =>
          rw [List.getLast?_eq_none_iff] at hL
          exact absurd hL hne
      | some t =>
          obtain ⟨ys, hys⟩ := List.getLast?_eq_some_iff.mp hL
          have hrk : removeKey c.links t.key = c.links.dropLast :=
            removeKey_getLast_of_nodup c.links t hL hnd
          have hdl : c.links.dropLast = ys := by rw [hys]; simp
          have hylen : c.links.length = ys.length + 1 := by rw [hys]; simp
          have hm : m ≤ ys.length := by omega
          have hndy : (ys.map Pair.key).Nodup := by
            rw [hys] at hnd
            simp only [List.map_append] at hnd
            exact (List.nodup_append.mp hnd).1
          obtain ⟨c1, hc1⟩ : ∃ c1 : LRUCache, c1 = purgeLRUItem c t := ⟨_, rfl⟩
          have hc1links : c1.links = ys := by
            rw [hc1]
            simp only [purgeLRUItem]
            rw [hrk, hdl]
          have hc1cap : c1.capacity = c.capacity := by rw [hc1]; rfl
          have hc1cb : c1.hasCallback = c.hasCallback := by rw [hc1]; rfl
          have hstep : adjustLoop (m + 1) c =
              ((adjustLoop m c1).1, tryEvict c t ++ (adjustLoop m c1).2) := by
            simp [adjustLoop, hL, ← hc1]
          obtain ⟨ih1, ih2, ih3, ih4⟩ :=
            ih c1 (by rw [hc1links]; exact hm) (by rw [hc1links]; exact hndy)
          refine ⟨?_, ?_, ?_, ?_⟩
          · rw [hstep]
            simp only []
            rw [ih1, hc1links, hys]
            simp only [List.length_append, List.length_cons,
              List.length_nil, Nat.zero_add, Nat.add_sub_add_right]
            exact (List.take_append_of_le_length (by omega)).symm
          · rw [hstep]
            simp only []
            rw [ih2, hc1cap]
          · rw [hstep]
            simp only []
            rw [ih3, hc1cb]
          · rw [hstep]
            simp only []
            rw [ih4, hc1links, hc1cb]
            simp only [tryEvict]
            cases hcb : c.hasCallback with
            | false => simp
            | true =>
                simp only [if_true]
                rw [hys]
                simp only [List.length_append, List.length_cons,
                  List.length_nil, Nat.zero_add, Nat.add_sub_add_right]
                rw [List.drop_append_of_le_length (by omega)]
                simp

/-- C6 counterexample: on a one-entry cache, `AdjustCapacity(-1)` removes
the single entry and invokes the callback once, yet
`max (S - newCapacity, 0) = 2`; the returned `numEvicted` is `2`, not the
number of entries actually evicted — the claim fails for negative
`newCapacity`. -/
theorem adjust_negative_capacity_counterexample :
    Size negAdjustCache = 1 ∧
    (AdjustCapacity negAdjustCache (-1)).2.2.length = 1 ∧
    Size (AdjustCapacity negAdjustCache (-1)).2.1 = 0 ∧
    (AdjustCapacity negAdjustCache (-1)).1 = 2 ∧
    ¬ (((AdjustCapacity negAdjustCache (-1)).2.2.length : Int) =
        max (Size negAdjustCache - (-1)) 0) ∧
    ¬ ((AdjustCapacity negAdjustCache (-1)).1 =
        ((AdjustCapacity negAdjustCache (-1)).2.2.length : Int)) := by
  decide

/-- C6 (amended): for every well-formed cache and every `newCapacity ≥ 0`,
`AdjustCapacity(newCapacity)` evicts exactly `max (S - newCapacity, 0)`
entries — precisely the least-recently-used ones, i.e. the surviving list
is the most-recent prefix and the callback log (when a callback is
registered) is exactly the evicted tail segment, evicted tail-first —
sets the capacity to `newCapacity`, and returns the number evicted. -/
theorem adjust_capacity_nonneg_spec (c : LRUCache) (bufCap : Int)
    (hwf : WF c) (hb : 0 ≤ bufCap) :
    (AdjustCapacity c bufCap).1 = max (Size c - bufCap) 0 ∧
    Capacity (AdjustCapacity c bufCap).2.1 = bufCap ∧
    Size (AdjustCapacity c bufCap).2.1 = min (Size c) bufCap ∧
    (AdjustCapacity c bufCap).2.1.links =
      c.links.take ((min (Size c) bufCap).toNat) ∧
    (AdjustCapacity c bufCap).2.2 =
      (if c.hasCallback then
        (c.links.drop ((min (Size c) bufCap).toNat)).reverse else []) := by
  have hnd : (c.links.map Pair.key).Nodup := hwf.2
  obtain ⟨d, hd⟩ : ∃ d : Int,
      d = (if ((c.links.length : Int) - bufCap) < 0 then (0 : Int)
           else ((c.links.length : Int) - bufCap)) := ⟨_, rfl⟩
  have hdle : 0 ≤ d ∧ d.toNat ≤ c.links.length := by
    rw [hd]
    split <;> constructor <;> omega
  have heq : AdjustCapacity c bufCap =
      (d, { (adjustLoop d.toNat c).1 with capacity := bufCap },
       (adjustLoop d.toNat c).2) := by
    simp only [AdjustCapacity, ← hd]
  obtain ⟨h1, h2, h3, h4⟩ := adjustLoop_spec d.toNat c hdle.2 hnd
  have hnat : c.links.length - d.toNat =
      (min ((c.links.length : Int)) bufCap).toNat := by
    rcases le_total ((c.links.length : Int)) bufCap with hle | hle
    · rw [min_eq_left hle, hd]
      split <;> omega
    · rw [min_eq_right hle, hd]
      split <;> omega
  have hmin0 : (0 : Int) ≤ min ((c.links.length : Int)) bufCap :=
    le_min (Int.ofNat_nonneg _) hb
  refine ⟨?_, ?_, ?_, ?_, ?_⟩
  · rw [heq]
    show d = max (Size c - bufCap) 0
    simp only [Size]
    rcases le_or_lt ((c.links.length : Int) - bufCap) 0 with hle | hlt
    · rw [max_eq_right hle, hd]
      split <;> omega
    · rw [max_eq_left (le_of_lt hlt), hd]
      split <;> omega
  · rw [heq]
    rfl
  · rw [heq]
    show ((adjustLoop d.toNat c).1.links.length : Int) = min (Size c) bufCap
    rw [h1, List.length_take, Nat.min_eq_left (by omega), hnat]
    simp only [Size]
    exact Int.toNat_of_nonneg hmin0
  · rw [heq]
    show (adjustLoop d.toNat c).1.links =
      c.links.take ((min (Size c) bufCap).toNat)
    rw [h1, hnat]
    simp only [Size]
  · rw [heq]
    show (adjustLoop d.toNat c).2 =
      (if c.hasCallback then
        (c.links.drop ((min (Size c) bufCap).toNat)).reverse else [])
    rw [h4, hnat]
    simp only [Size]

theorem adjust_capacity_nonneg_spec_witness :
    (AdjustCapacity shrinkCache 1).1 = max (Size shrinkCache - 1) 0 ∧
    Capacity (AdjustCapacity shrinkCache 1).2.1 = 1 ∧
    Size (AdjustCapacity shrinkCache 1).2.1 = min (Size shrinkCache) 1 ∧
    (AdjustCapacity shrinkCache 1).2.1.links =
      shrinkCache.links.take ((min (Size shrinkCache) 1).toNat) ∧
    (AdjustCapacity shrinkCache 1).2.2 =
      (if shrinkCache.hasCallback then
        (shrinkCache.links.drop ((min (Size shrinkCache) 1).toNat)).reverse
       else []) :=
  adjust_capacity_nonneg_spec shrinkCache 1 (by decide) (by decide)

end Tenure
